import Mathlib

/-!
Verification of the autoprepml Feature Engine specification.

The Feature Engine (`AutoFeatureEngine` in `autoprepml/feature_engine.py`) is
exercised only through its test suite in this snapshot; its data model and
operations are therefore modelled from the specification (spec.md §3, §4, §7),
faithful to the spec's words.  The LLM suggestion layer
(`autoprepml/llm_suggest.py`) is present in source and is embedded directly.
-/

namespace Autoprepml

/-- Modelled from the spec: a datetime value, carrying exactly the fields the
Datetime Generator may extract (spec §4.7). -/
structure PyDateTime where
  year : Int
  month : Int
  day : Int
  dayofweek : Int
  quarter : Int
  hour : Int
deriving DecidableEq, Repr, Inhabited

/-- Modelled from the spec: a single cell value.  Numeric values are modelled
over ℚ; `nan` is the null/undefined value, `inf` the signed-infinity sentinel
of the zero-division policy (spec §4.4), `text` a categorical value and `time`
a datetime value. -/
inductive Cell where
  | real (q : ℚ)
  | nan
  | inf (pos : Bool)
  | text (s : String)
  | time (d : PyDateTime)
deriving DecidableEq, Repr, Inhabited

/-- Modelled from the spec: the declared kind of a column (spec §3 "a declared
kind (numeric-float, numeric-int, categorical/text, datetime, boolean)";
the two numeric kinds are merged since the model's carrier is ℚ). -/
inductive ColKind where
  | numeric
  | categorical
  | datetime
  | boolean
deriving DecidableEq, Repr, Inhabited

/-- Modelled from the spec: a named column of a table. -/
structure Column where
  name : String
  kind : ColKind
  cells : List Cell
deriving DecidableEq, Repr, Inhabited

/-- Modelled from the spec: a table is an ordered collection of named columns
(spec §3). -/
structure Table where
  cols : List Column
deriving DecidableEq, Repr, Inhabited

/-- Modelled from the spec: the error taxonomy of spec §7. -/
inductive EngineError where
  | inputTypeError
  | emptyInputError
  | targetNotFoundError
  | columnNotFoundError
  | valueError (msg : String)
  | typeError (msg : String)
deriving DecidableEq, Repr

/-- Row count of a table: the length of its first column (0 for no columns). -/
def Table.nRows (t : Table) : Nat :=
  match t.cols with
  | [] => 0
  | c :: _ => c.cells.length

/-- Names of the columns of a table, in order. -/
def Table.names (t : Table) : List String :=
  t.cols.map Column.name

/-- Look a column up by name (first match). -/
def Table.getCol (t : Table) (name : String) : Option Column :=
  t.cols.find? (fun c => c.name == name)

/-- Set a column: replace the column of that name when present, append
otherwise (the semantics of a pandas column assignment). -/
def Table.setCol (t : Table) (c : Column) : Table :=
  if t.cols.any (fun c0 => c0.name == c.name) then
    ⟨t.cols.map (fun c0 => if c0.name == c.name then c else c0)⟩
  else
    ⟨t.cols ++ [c]⟩

/-- Set a batch of columns left to right. -/
def Table.addCols (t : Table) (ncs : List Column) : Table :=
  ncs.foldl Table.setCol t

/-- Modelled from the spec: a well-formed table has at least one row, all
columns row-aligned, and distinct column names (spec §3). -/
def Table.Valid (t : Table) : Prop :=
  0 < t.nRows ∧ (∀ c ∈ t.cols, c.cells.length = t.nRows) ∧ t.names.Nodup

instance (t : Table) : Decidable t.Valid := by
  unfold Table.Valid
  infer_instance

/-- A cell is undefined (null) exactly when it is `nan`. -/
def Cell.isUndef : Cell → Bool
  | .nan => true
  | _ => false

/-- A cell holds a defined numeric value (finite or infinite). -/
def Cell.isNumericCell : Cell → Bool
  | .real _ => true
  | .inf _ => true
  | _ => false

/-- Numeric reading of a cell (non-numeric cells read as 0). -/
def cellQ : Cell → ℚ
  | .real q => q
  | _ => 0

/-- Numeric readings of a list of cells. -/
def cellsToQ (cs : List Cell) : List ℚ :=
  cs.map cellQ

/-- Cellwise product (undefined inputs propagate as `nan`). -/
def cellMul : Cell → Cell → Cell
  | .real a, .real b => .real (a * b)
  | .real a, .inf s => if a = 0 then .nan else .inf (s == decide (0 ≤ a))
  | .inf s, .real b => if b = 0 then .nan else .inf (s == decide (0 ≤ b))
  | .inf s, .inf s2 => .inf (s == s2)
  | _, _ => .nan

/-- Cellwise power. -/
def cellPow (p : Nat) : Cell → Cell
  | .real a => .real (a ^ p)
  | .inf s => .inf (s || decide (p % 2 = 0))
  | _ => .nan

/-- Modelled from the spec: cellwise quotient implementing the zero-division
policy of spec §4.4 — a zero denominator yields the sentinel 0 (for a zero
numerator) or a signed infinity, never an error and never a null. -/
def cellDiv : Cell → Cell → Cell
  | .real a, .real b =>
      if b = 0 then (if a = 0 then .real 0 else .inf (decide (0 ≤ a)))
      else .real (a / b)
  | .real _, .inf _ => .real 0
  | .inf s, .real _ => .inf s
  | .inf s, .inf _ => .inf s
  | _, _ => .nan

/-- All unordered pairs of a list, in order of ascending combination index. -/
def pairsOf : List α → List (α × α)
  | [] => []
  | x :: xs => (xs.map (fun y => (x, y))) ++ pairsOf xs

/-- All ordered pairs of distinct positions of a list. -/
def ordPairs : List α → List (α × α)
  | [] => []
  | x :: xs => (xs.map (fun y => (x, y))) ++ (xs.map (fun y => (y, x))) ++ ordPairs xs

/-- Truncate a list to an optional cap. -/
def capList (cap : Option Nat) (l : List α) : List α :=
  match cap with
  | none => l
  | some k => l.take k

/-- Mean of a list of rationals (0 for the empty list). -/
def meanQ (l : List ℚ) : ℚ :=
  if l.length = 0 then 0 else l.sum / (l.length : ℚ)

/-- Sample covariance proxy of two paired numeric lists. -/
def covarianceQ (xs ys : List ℚ) : ℚ :=
  meanQ (List.zipWith (· * ·) xs ys) - meanQ xs * meanQ ys

/-- Modelled from the spec: the pairwise-product column of the Interaction
Generator, named by joining the two source names with the fixed token
`_x_` (spec §4.3). -/
def interactionColumn (a b : Column) : Column :=
  ⟨a.name ++ "_x_" ++ b.name, .numeric, List.zipWith cellMul a.cells b.cells⟩

/-- Modelled from the spec: a power column of the Polynomial Generator
(spec §4.2). -/
def powerColumn (p : Nat) (c : Column) : Column :=
  ⟨c.name ++ "_pow_" ++ toString p, .numeric, c.cells.map (cellPow p)⟩

/-- Modelled from the spec: the quotient column of the Ratio Generator, named
by joining numerator and denominator names with the token `_div_`
(spec §4.4). -/
def ratioColumn (a b : Column) : Column :=
  ⟨a.name ++ "_div_" ++ b.name, .numeric, List.zipWith cellDiv a.cells b.cells⟩

/-- Stable insertion of an element into a list under a Boolean order. -/
def insertBy (le : α → α → Bool) (a : α) : List α → List α
  | [] => [a]
  | b :: bs => if le a b then a :: b :: bs else b :: insertBy le a bs

/-- Stable insertion sort under a Boolean order. -/
def sortBy (le : α → α → Bool) : List α → List α
  | [] => []
  | a :: as => insertBy le a (sortBy le as)

/-- Modelled from the spec: the bin edges of the Binning Generator, `n - 1`
cut points per strategy over the column's values (spec §4.5; the kmeans-like
strategy is modelled as quantile cuts over the deduplicated values, which the
spec leaves open). -/
def cutPoints (strategy : String) (vals : List ℚ) (n : Nat) : List ℚ :=
  if strategy = "quantile" then
    let sorted := sortBy (fun a b => decide (a ≤ b)) vals
    (List.range (n - 1)).map (fun i => sorted.getD ((i + 1) * vals.length / n) 0)
  else if strategy = "kmeans" then
    let sorted := sortBy (fun a b => decide (a ≤ b)) vals.dedup
    (List.range (n - 1)).map (fun i => sorted.getD ((i + 1) * vals.dedup.length / n) 0)
  else
    let lo := vals.foldl min (vals.headD 0)
    let hi := vals.foldl max (vals.headD 0)
    (List.range (n - 1)).map (fun i : Nat => lo + (hi - lo) * ((i : ℚ) + 1) / (n : ℚ))

/-- Bin index of a value: the number of cut points at or below it. -/
def binIndex (edges : List ℚ) (q : ℚ) : Nat :=
  edges.countP (fun e => decide (e ≤ q))

/-- Modelled from the spec: the discretized column of the Binning Generator,
named by the source name plus the `_binned` marker; values are the bin
indices, emitted as a numeric kind (spec §4.5). -/
def binnedColumn (n : Nat) (strategy : String) (c : Column) : Column :=
  let edges := cutPoints strategy (cellsToQ c.cells) n
  ⟨c.name ++ "_binned", .numeric,
    c.cells.map (fun cell => Cell.real ((binIndex edges (cellQ cell) : Nat) : ℚ))⟩

/-- Modelled from the spec: one row-wise aggregate value (spec §4.6; the
standard deviation is modelled by the variance since the carrier is ℚ). -/
def aggValue (op : String) (xs : List ℚ) : ℚ :=
  if op = "sum" then xs.sum
  else if op = "mean" then meanQ xs
  else if op = "std" then meanQ (xs.map (fun x => (x - meanQ xs) ^ 2))
  else if op = "min" then xs.foldl min (xs.headD 0)
  else if op = "max" then xs.foldl max (xs.headD 0)
  else 0

/-- Modelled from the spec: a row-wise aggregate column, named by the fixed
prefix `agg_` plus the operation name, computed across the selected columns
for each row (spec §4.6). -/
def aggColumn (nRows : Nat) (selected : List Column) (op : String) : Column :=
  ⟨"agg_" ++ op, .numeric,
    (List.range nRows).map (fun i =>
      Cell.real (aggValue op (selected.map (fun c => cellQ (c.cells.getD i Cell.nan)))))⟩

/-- Modelled from the spec: the integer field a datetime feature extracts
(spec §4.7). -/
def dtField (f : String) (d : PyDateTime) : Int :=
  if f = "year" then d.year
  else if f = "month" then d.month
  else if f = "day" then d.day
  else if f = "dayofweek" then d.dayofweek
  else if f = "quarter" then d.quarter
  else d.hour

/-- Modelled from the spec: a derived datetime column, named by suffixing the
source name with the feature name (spec §4.7). -/
def dtColumn (c : Column) (f : String) : Column :=
  ⟨c.name ++ "_" ++ f, .numeric,
    c.cells.map (fun cell =>
      match cell with
      | .time d => Cell.real ((dtField f d : Int) : ℚ)
      | _ => Cell.nan)⟩

/-- Modelled from the spec: look up the named columns in order, failing with
`ColumnNotFoundError` for a name that does not exist at all; a column
that exists but has the wrong kind is silently skipped when `skip` is set
(the Polynomial Generator's asymmetry, spec §4.2 and §9) and fails with a
`TypeError` otherwise (spec §7). -/
def lookupCols (t : Table) (required : ColKind) (skip : Bool) :
    List String → Except EngineError (List Column)
  | [] => .ok []
  | n :: ns =>
    match t.getCol n with
    | none => .error .columnNotFoundError
    | some c =>
      if c.kind = required then (lookupCols t required skip ns).map (fun rest => c :: rest)
      else if skip then lookupCols t required skip ns
      else .error (.typeError ("column " ++ n ++ " has wrong kind"))

/-- Modelled from the spec: the engine holds the validated table and the
optional target column name (spec §3, §4.1). -/
structure AutoFeatureEngine where
  df : Table
  target_column : Option String
deriving DecidableEq, Repr

/-- Modelled from the spec: a candidate constructor input, either a
table-shaped value or not (spec §4.1). -/
inductive EngineInput where
  | table (t : Table)
  | nonTable
deriving DecidableEq, Repr

/-- Modelled from the spec: engine construction per the Validator contract of
spec §4.1 — `InputTypeError` for a non-table input, `EmptyInputError` for a
table with zero rows or zero columns, `TargetNotFoundError` for a target name
absent from the table. -/
def AutoFeatureEngine.init (input : EngineInput) (target : Option String) :
    Except EngineError AutoFeatureEngine :=
  match input with
  | .nonTable => .error .inputTypeError
  | .table t =>
    if t.cols.length = 0 ∨ t.nRows = 0 then .error .emptyInputError
    else
      match target with
      | none => .ok ⟨t, none⟩
      | some name =>
        match t.getCol name with
        | none => .error .targetNotFoundError
        | some _ => .ok ⟨t, some name⟩

/-- Modelled from the spec: the Polynomial Generator (spec §4.2) — powers of
each selected numeric column up to `degree` (skipped when `interaction_only`)
plus pairwise products; non-numeric named columns are silently skipped, a
nonexistent named column fails, an empty resulting set fails. -/
def AutoFeatureEngine.create_polynomial_features (e : AutoFeatureEngine)
    (columns : List String) (degree : Nat) (interaction_only : Bool) :
    Except EngineError Table :=
  if degree < 2 then .error (.valueError "degree must be at least 2") else
  match lookupCols e.df .numeric true columns with
  | .error err => .error err
  | .ok ncols =>
    if ncols.length = 0 then .error (.valueError "no numeric columns") else
    let powers :=
      if interaction_only then []
      else (ncols.map (fun c => (List.range (degree - 1)).map (fun i => powerColumn (i + 2) c))).flatten
    let products := (pairsOf ncols).map (fun p => interactionColumn p.1 p.2)
    .ok (e.df.addCols (powers ++ products))

/-- Modelled from the spec: the Interaction Generator (spec §4.3) — pairwise
products over every unordered pair exactly once, in stable order, truncated
to `max_interactions` when set. -/
def AutoFeatureEngine.create_interactions (e : AutoFeatureEngine)
    (columns : List String) (max_interactions : Option Nat) :
    Except EngineError Table :=
  match lookupCols e.df .numeric false columns with
  | .error err => .error err
  | .ok ncols =>
    let newCols := (capList max_interactions (pairsOf ncols)).map
      (fun p => interactionColumn p.1 p.2)
    .ok (e.df.addCols newCols)

/-- Modelled from the spec: the Ratio Generator (spec §4.4) — quotient columns
for a bounded set of ordered pairs, truncated to `max_ratios`, with the
zero-division policy of `cellDiv`. -/
def AutoFeatureEngine.create_ratio_features (e : AutoFeatureEngine)
    (columns : List String) (max_ratios : Option Nat) :
    Except EngineError Table :=
  match lookupCols e.df .numeric false columns with
  | .error err => .error err
  | .ok ncols =>
    let newCols := (capList max_ratios (ordPairs ncols)).map
      (fun p => ratioColumn p.1 p.2)
    .ok (e.df.addCols newCols)

/-- Modelled from the spec: the Binning Generator (spec §4.5) — one discretized
column per input column; the default mode (`replace = false`) is additive and
keeps the source column, replace mode substitutes each source column by its
discretized column in place. -/
def AutoFeatureEngine.create_binned_features (e : AutoFeatureEngine)
    (columns : List String) (n_bins : Nat) (strategy : String) (replace : Bool) :
    Except EngineError Table :=
  if n_bins = 0 then .error (.valueError "n_bins must be positive") else
  if ¬(strategy = "uniform" ∨ strategy = "quantile" ∨ strategy = "kmeans") then
    .error (.valueError "unknown strategy")
  else
    match lookupCols e.df .numeric false columns with
    | .error err => .error err
    | .ok ncols =>
      if replace then
        .ok ⟨e.df.cols.map (fun c =>
          if c.kind = .numeric ∧ c.name ∈ columns then binnedColumn n_bins strategy c else c)⟩
      else
        .ok (e.df.addCols (ncols.map (binnedColumn n_bins strategy)))

/-- Modelled from the spec: the Aggregation Generator (spec §4.6) — one
row-wise aggregate column per requested operation, and only those. -/
def AutoFeatureEngine.create_aggregation_features (e : AutoFeatureEngine)
    (columns : List String) (operations : List String) :
    Except EngineError Table :=
  if ¬(∀ op ∈ operations, op ∈ ["sum", "mean", "std", "min", "max"]) then
    .error (.valueError "unknown operation")
  else
    match lookupCols e.df .numeric false columns with
    | .error err => .error err
    | .ok ncols =>
      .ok (e.df.addCols (operations.map (aggColumn e.df.nRows ncols)))

/-- Modelled from the spec: the Datetime Generator (spec §4.7) — one derived
integer column per source column and requested feature; it fails hard with a
`TypeError` on a named column that exists but is not datetime-valued. -/
def AutoFeatureEngine.create_datetime_features (e : AutoFeatureEngine)
    (columns : List String) (features : List String) :
    Except EngineError Table :=
  match lookupCols e.df .datetime false columns with
  | .error err => .error err
  | .ok dcols =>
    .ok (e.df.addCols ((dcols.map (fun c => features.map (dtColumn c))).flatten))

/-- Modelled from the spec: the statistical score of the Feature Selector
(spec §4.8; the concrete statistic is a covariance proxy, which the spec
leaves to the chosen method). -/
def featureScore (method : String) (c tgt : Column) : ℚ :=
  let cov := covarianceQ (cellsToQ c.cells) (cellsToQ tgt.cells)
  if method = "mutual_info" then cov ^ 2 else |cov|

/-- Modelled from the spec: the Feature Selector (spec §4.8) — requires a
bound target (`ValueError` otherwise), scores every non-target column, keeps
the top-`k` columns in stable order, and always retains the target column. -/
def AutoFeatureEngine.select_features (e : AutoFeatureEngine)
    (method : String) (k : Nat) (task : String) : Except EngineError Table :=
  match e.target_column with
  | none => .error (.valueError "target required")
  | some tgt =>
    if ¬(method = "mutual_info" ∨ method = "f_test") then
      .error (.valueError "unknown method")
    else if ¬(task = "classification" ∨ task = "regression") then
      .error (.valueError "unknown task")
    else
      match e.df.getCol tgt with
      | none => .error .targetNotFoundError
      | some tcol =>
        let feats := e.df.cols.filter (fun c => c.name != tgt)
        let scored := feats.map (fun c => (c, featureScore method c tcol))
        let sorted := sortBy (fun a b => decide (b.2 ≤ a.2)) scored
        let kept := (sorted.take k).map Prod.fst
        .ok ⟨kept ++ [tcol]⟩

/-- Modelled from the spec: the Importance Ranker (spec §4.9) — requires a
bound target (`ValueError` otherwise) and reports one non-negative score per
non-target column (the model-based importance is represented by a squared
covariance proxy, which the spec leaves to the fitted baseline model). -/
def AutoFeatureEngine.get_feature_importance (e : AutoFeatureEngine)
    (task : String) : Except EngineError (List (String × ℚ)) :=
  match e.target_column with
  | none => .error (.valueError "target required")
  | some tgt =>
    if ¬(task = "classification" ∨ task = "regression") then
      .error (.valueError "unknown task")
    else
      match e.df.getCol tgt with
      | none => .error .targetNotFoundError
      | some tcol =>
        let feats := e.df.cols.filter (fun c => c.name != tgt)
        .ok (feats.map (fun c =>
          (c.name, (covarianceQ (cellsToQ c.cells) (cellsToQ tcol.cells)) ^ 2)))

/-- The supported LLM providers (`LLMProvider` in `llm_suggest.py`). -/
inductive LLMProvider where
  | openai
  | anthropic
  | google
  | ollama
deriving DecidableEq, Repr

/-- The `value` of an `LLMProvider` member. -/
def providerName : LLMProvider → String
  | .openai => "openai"
  | .anthropic => "anthropic"
  | .google => "google"
  | .ollama => "ollama"

/-- Outcome of each provider-specific request of `LLMSuggestor._call_llm`:
the request either returns content or raises an exception carrying a
message, modelled by `Except`. -/
structure ProviderOutcome where
  openaiResp : Except String String
  anthropicResp : Except String String
  googleResp : Except String String
  ollamaResp : Except String String
deriving Repr

/-- The body of the `try` block of `LLMSuggestor._call_llm`: dispatch on the
provider and perform its request. -/
def call_llm_body (p : LLMProvider) (o : ProviderOutcome) : Except String String :=
  match p with
  | .openai => o.openaiResp
  | .anthropic => o.anthropicResp
  | .google => o.googleResp
  | .ollama => o.ollamaResp

/-- `LLMSuggestor._call_llm` (llm_suggest.py lines 134-189): the whole provider
dispatch runs inside a `try`; any exception is caught and rendered as the
string "Error calling {provider}: {message}" instead of propagating. -/
def call_llm (p : LLMProvider) (o : ProviderOutcome) : String :=
  match call_llm_body p o with
  | .ok content => content
  | .error e => "Error calling " ++ providerName p ++ ": " ++ e

/-- JSON values, the codomain of the model of `json.loads`. -/
inductive Json where
  | null
  | jbool (b : Bool)
  | jnum (n : Int)
  | jstr (s : String)
  | jarr (xs : List Json)
  | jobj (fields : List (String × Json))

/-- Whether a JSON value is an object (a Python dictionary after
`json.loads`). -/
def Json.isObj : Json → Bool
  | .jobj _ => true
  | _ => false

/-- JSON whitespace test. -/
def isWsChar (c : Char) : Bool :=
  c == ' ' || c == '\n' || c == '\t' || c == '\r'

/-- Drop leading JSON whitespace. -/
def skipWs (s : List Char) : List Char :=
  s.dropWhile isWsChar

/-- The double-quote character. -/
def quoteChar : Char := Char.ofNat 34

/-- The backslash character. -/
def backslashChar : Char := Char.ofNat 92

/-- The opening curly-brace character. -/
def openBraceChar : Char := Char.ofNat 123

/-- The closing curly-brace character. -/
def closeBraceChar : Char := Char.ofNat 125

/-- Parse the remainder of a JSON string literal after its opening quote
(escape sequences keep the escaped character raw, enough fidelity for the
texts considered here). -/
def parseStringRest : List Char → Option (String × List Char)
  | [] => none
  | c :: r =>
    if c = quoteChar then some ("", r)
    else if c = backslashChar then
      match r with
      | [] => none
      | c2 :: r2 =>
        (parseStringRest r2).map (fun sr => (String.mk (c2 :: sr.1.toList), sr.2))
    else
      (parseStringRest r).map (fun sr => (String.mk (c :: sr.1.toList), sr.2))

/-- Digits to a natural number. -/
def digitsToNat (ds : List Char) : Nat :=
  ds.foldl (fun a c => a * 10 + (c.toNat - 48)) 0

/-- Parse a nonempty run of digits as an integer. -/
def parseDigits (s : List Char) : Option (Int × List Char) :=
  let ds := s.takeWhile Char.isDigit
  if ds.length = 0 then none
  else some ((digitsToNat ds : Int), s.drop ds.length)

mutual

/-- Fuel-bounded recursive-descent parser for a JSON value, the model of the
value grammar accepted by `json.loads` (numbers restricted to integers,
which covers the texts considered here). -/
def parseValue : Nat → List Char → Option (Json × List Char)
  | 0, _ => none
  | Nat.succ fuel, s =>
    match skipWs s with
    | [] => none
    | c :: rest =>
      if c = openBraceChar then
        match skipWs rest with
        | [] => none
        | c2 :: r2 =>
          if c2 = closeBraceChar then some (Json.jobj [], r2)
          else (parseMembers fuel (c2 :: r2)).map (fun mr => (Json.jobj mr.1, mr.2))
      else if c = '[' then
        match skipWs rest with
        | ']' :: r2 => some (Json.jarr [], r2)
        | r => (parseElements fuel r).map (fun er => (Json.jarr er.1, er.2))
      else if c = quoteChar then
        (parseStringRest rest).map (fun sr => (Json.jstr sr.1, sr.2))
      else if c = 't' then
        if "rue".toList.isPrefixOf rest then some (Json.jbool true, rest.drop 3) else none
      else if c = 'f' then
        if "alse".toList.isPrefixOf rest then some (Json.jbool false, rest.drop 4) else none
      else if c = 'n' then
        if "ull".toList.isPrefixOf rest then some (Json.null, rest.drop 3) else none
      else if c = '-' then
        (parseDigits rest).map (fun nr => (Json.jnum (-nr.1), nr.2))
      else if c.isDigit then
        (parseDigits (c :: rest)).map (fun nr => (Json.jnum nr.1, nr.2))
      else none

/-- Fuel-bounded parser for the members of a JSON object after `{`. -/
def parseMembers : Nat → List Char → Option (List (String × Json) × List Char)
  | 0, _ => none
  | Nat.succ fuel, s =>
    match skipWs s with
    | [] => none
    | c :: rest =>
      if c = quoteChar then
        match parseStringRest rest with
        | none => none
        | some (key, r1) =>
          match skipWs r1 with
          | ':' :: r2 =>
            match parseValue fuel r2 with
            | none => none
            | some (v, r3) =>
              match skipWs r3 with
              | [] => none
              | c3 :: r4 =>
                if c3 = ',' then
                  (parseMembers fuel r4).map (fun mr => ((key, v) :: mr.1, mr.2))
                else if c3 = closeBraceChar then some ([(key, v)], r4)
                else none
          | _ => none
      else none

/-- Fuel-bounded parser for the elements of a JSON array after `[`. -/
def parseElements : Nat → List Char → Option (List Json × List Char)
  | 0, _ => none
  | Nat.succ fuel, s =>
    match parseValue fuel s with
    | none => none
    | some (v, r1) =>
      match skipWs r1 with
      | ',' :: r2 => (parseElements fuel r2).map (fun er => (v :: er.1, er.2))
      | ']' :: r2 => some ([v], r2)
      | _ => none

end

/-- Model of `json.loads`: parse one JSON value and require only whitespace
after it; `none` models a raised `JSONDecodeError`. -/
def jsonLoads (s : String) : Option Json :=
  match parseValue (s.length + 2) s.toList with
  | some (j, rest) => if skipWs rest = [] then some j else none
  | none => none

/-- Index of the first occurrence of `sub` in `s`, if any. -/
def findSubAux (s sub : List Char) : Option Nat :=
  match s with
  | [] => if sub.length = 0 then some 0 else none
  | _ :: t => if sub.isPrefixOf s then some 0 else (findSubAux t sub).map (· + 1)

/-- Python `str.find(sub, start)`: first index at or after `start`, else -1. -/
def pyFind (s sub : List Char) (start : Nat) : Int :=
  match (findSubAux (s.drop start) sub).map (· + start) with
  | some i => (i : Int)
  | none => -1

/-- Whether `sub` occurs in `s` (Python `in`). -/
def containsSub (s sub : List Char) : Bool :=
  (findSubAux s sub).isSome

/-- Python slice `s[a:b]` with support for a negative end index. -/
def pySlice (s : List Char) (a b : Int) : List Char :=
  let n : Int := s.length
  let a2 := if a < 0 then max 0 (n + a) else min a n
  let b2 := if b < 0 then max 0 (n + b) else min b n
  (s.take b2.toNat).drop a2.toNat

/-- Python `str.strip()`: remove leading and trailing whitespace. -/
def pyStrip (s : List Char) : List Char :=
  ((s.dropWhile isWsChar).reverse.dropWhile isWsChar).reverse

/-- The markdown-fence stripping of `LLMSuggestor.analyze_dataframe`
(llm_suggest.py lines 281-289): cut the text between a ```json fence (or a
bare ``` fence) and the next fence, and strip whitespace; texts without a
fence pass through unchanged. -/
def stripFencesL (s : List Char) : List Char :=
  let fj := "```json".toList
  let f := "```".toList
  if containsSub s fj then
    let js : Int := pyFind s fj 0 + 7
    let je : Int := pyFind s f js.toNat
    pyStrip (pySlice s js je)
  else if containsSub s f then
    let js : Int := pyFind s f 0 + 3
    let je : Int := pyFind s f js.toNat
    pyStrip (pySlice s js je)
  else s

/-- String version of `stripFencesL`. -/
def stripFences (s : String) : String :=
  String.mk (stripFencesL s.toList)

/-- The response-parsing tail of `LLMSuggestor.analyze_dataframe`
(llm_suggest.py lines 280-293): inside a `try`, strip markdown fences and
parse the result as JSON, returning the parsed value as-is; any parse failure
is caught and the (possibly fence-stripped) text is returned under the key
"raw_response". -/
def analyze_dataframe_parse (response : String) : Json :=
  let stripped := stripFences response
  match jsonLoads stripped with
  | some j => j
  | none => Json.jobj [("raw_response", Json.jstr stripped)]

/-- A concrete two-row table used to instantiate the theorems below. -/
def wTable : Table :=
  ⟨[⟨"a", .numeric, [Cell.real 1, Cell.real 2]⟩,
    ⟨"b", .numeric, [Cell.real 3, Cell.real 0]⟩,
    ⟨"t", .numeric, [Cell.real 0, Cell.real 1]⟩,
    ⟨"d", .datetime, [Cell.time ⟨2020, 1, 1, 2, 1, 0⟩, Cell.time ⟨2021, 6, 15, 1, 2, 12⟩]⟩]⟩

/-- A concrete engine over `wTable` with a bound target. -/
def wEngine : AutoFeatureEngine := ⟨wTable, some "t"⟩

/-- A concrete engine over `wTable` without a target. -/
def wEngineNoTarget : AutoFeatureEngine := ⟨wTable, none⟩

/-- The concrete polynomial-generator output over `wTable`. -/
def wOutPoly : Table :=
  (wEngine.create_polynomial_features ["a", "b"] 2 false).toOption.getD ⟨[]⟩

/-- The concrete interaction-generator output over `wTable`. -/
def wOutInter : Table :=
  (wEngine.create_interactions ["a", "b"] none).toOption.getD ⟨[]⟩

/-- The concrete ratio-generator output over `wTable`. -/
def wOutRatio : Table :=
  (wEngine.create_ratio_features ["a", "b"] none).toOption.getD ⟨[]⟩

/-- The concrete binning-generator output over `wTable`. -/
def wOutBin : Table :=
  (wEngine.create_binned_features ["a"] 2 "uniform" false).toOption.getD ⟨[]⟩

/-- The concrete aggregation-generator output over `wTable`. -/
def wOutAgg : Table :=
  (wEngine.create_aggregation_features ["a", "b"] ["sum", "mean"]).toOption.getD ⟨[]⟩

/-- The concrete datetime-generator output over `wTable`. -/
def wOutDt : Table :=
  (wEngine.create_datetime_features ["d"] ["year", "month"]).toOption.getD ⟨[]⟩

/-- The target column of `wTable`. -/
def wTCol : Column := ⟨"t", .numeric, [Cell.real 0, Cell.real 1]⟩

/-- A concrete two-column engine (one feature plus target) for the selector
witness. -/
def wSelEngine : AutoFeatureEngine :=
  ⟨⟨[⟨"a", .numeric, [Cell.real 1, Cell.real 2]⟩, wTCol]⟩, some "t"⟩

/-- The concrete selector output over `wSelEngine`. -/
def wOutSel : Table :=
  (wSelEngine.select_features "mutual_info" 5 "classification").toOption.getD ⟨[]⟩

/-- The concrete importance mapping over `wTable`. -/
def wOutImp : List (String × ℚ) :=
  (wEngine.get_feature_importance "classification").toOption.getD []

/-- The first column of `wTable`. -/
def wACol : Column := ⟨"a", .numeric, [Cell.real 1, Cell.real 2]⟩

/-- The second column of `wTable`. -/
def wBCol : Column := ⟨"b", .numeric, [Cell.real 3, Cell.real 0]⟩

/-- A concrete numerator column for the ratio witnesses. -/
def wNum : Column := ⟨"x", .numeric, [Cell.real 4, Cell.real 1]⟩

/-- A concrete all-defined denominator column containing a zero. -/
def wDen : Column := ⟨"y", .numeric, [Cell.real 0, Cell.real 2]⟩

/-- The concrete ratio column produced over `wTable`. -/
def wRatioCol : Column := ratioColumn wACol wBCol

/-- The concrete binned column produced over `wTable`. -/
def wBinCol : Column := (wOutBin.getCol "a_binned").getD default

/-- The first importance entry of `wOutImp`. -/
def wImpHead : String × ℚ := wOutImp.getD 0 ("", 0)

theorem Table.cols_mk (l : List Column) : (Table.mk l).cols = l := rfl

theorem Table.nRows_of_cols_nil {t : Table} (h : t.cols = []) : t.nRows = 0 := by
  obtain ⟨cols⟩ := t
  simp only [Table.cols_mk] at h
  subst h
  rfl

theorem Table.cols_ne_nil_of_valid {t : Table} (hv : t.Valid) : t.cols ≠ [] := by
  intro h
  have h0 := Table.nRows_of_cols_nil h
  have h1 := hv.1
  omega

theorem Table.nRows_eq_of_forall {t : Table} {n : Nat} (hne : t.cols ≠ [])
    (h : ∀ c ∈ t.cols, c.cells.length = n) : t.nRows = n := by
  obtain ⟨cols⟩ := t
  cases cols with
  | nil => exact absurd rfl hne
  | cons c cs => exact h c (List.mem_cons_self c cs)

theorem Table.mem_setCol {t : Table} {c c' : Column} (h : c' ∈ (t.setCol c).cols) :
    c' ∈ t.cols ∨ c' = c := by
  unfold Table.setCol at h
  split at h
  · simp only [Table.cols_mk, List.mem_map] at h
    obtain ⟨c0, hc0, heq⟩ := h
    by_cases hn : (c0.name == c.name)
    · right
      rw [if_pos hn] at heq
      exact heq.symm
    · left
      rw [if_neg hn] at heq
      rwa [heq] at hc0
  · simp only [Table.cols_mk, List.mem_append, List.mem_singleton] at h
    exact h

theorem Table.cells_length_setCol {t : Table} {c : Column} {n : Nat}
    (ht : ∀ c0 ∈ t.cols, c0.cells.length = n) (hc : c.cells.length = n) :
    ∀ c' ∈ (t.setCol c).cols, c'.cells.length = n := by
  intro c' h
  rcases Table.mem_setCol h with h1 | rfl
  · exact ht c' h1
  · exact hc

theorem Table.cols_ne_nil_setCol {t : Table} {c : Column} (h : t.cols ≠ []) :
    (t.setCol c).cols ≠ [] := by
  unfold Table.setCol
  split
  · simp only [Table.cols_mk, ne_eq, List.map_eq_nil_iff]
    exact h
  · simp

theorem Table.names_setCol (t : Table) (c : Column) :
    (t.setCol c).names = t.names ∨
    ((t.setCol c).names = t.names ++ [c.name] ∧ c.name ∉ t.names) := by
  unfold Table.setCol Table.names
  split
  · left
    simp only [Table.cols_mk, List.map_map]
    apply List.map_congr_left
    intro c0 _
    by_cases hn : c0.name = c.name
    · simp [Function.comp, hn]
    · simp [Function.comp, hn]
  · right
    constructor
    · simp
    · rename_i hany
      simp only [List.any_eq_true, beq_iff_eq, not_exists, not_and] at hany
      simp only [List.mem_map, not_exists, not_and]
      intro c0 hc0
      exact hany c0 hc0

theorem Table.nodup_names_setCol {t : Table} {c : Column} (h : t.names.Nodup) :
    (t.setCol c).names.Nodup := by
  rcases Table.names_setCol t c with he | ⟨he, hnm⟩
  · rwa [he]
  · rw [he]
    simp [List.nodup_append, h, hnm]

theorem Table.mem_names_setCol {t : Table} {c : Column} {n : String}
    (h : n ∈ t.names) : n ∈ (t.setCol c).names := by
  rcases Table.names_setCol t c with he | ⟨he, _⟩
  · rwa [he]
  · rw [he]
    exact List.mem_append_left _ h

theorem Table.self_mem_names_setCol (t : Table) (c : Column) :
    c.name ∈ (t.setCol c).names := by
  unfold Table.setCol Table.names
  split
  · rename_i hany
    simp only [List.any_eq_true, beq_iff_eq] at hany
    obtain ⟨c0, hc0, hn⟩ := hany
    simp only [Table.cols_mk, List.map_map, List.mem_map]
    refine ⟨c0, hc0, ?_⟩
    simp [Function.comp, hn]
  · simp

theorem Table.valid_setCol {t : Table} {c : Column} (hv : t.Valid)
    (hc : c.cells.length = t.nRows) :
    (t.setCol c).Valid ∧ (t.setCol c).nRows = t.nRows := by
  obtain ⟨hpos, hlens, hnodup⟩ := hv
  have hne : t.cols ≠ [] := by
    intro h0
    rw [Table.nRows_of_cols_nil h0] at hpos
    exact absurd hpos (by omega)
  have h1 : ∀ c' ∈ (t.setCol c).cols, c'.cells.length = t.nRows :=
    Table.cells_length_setCol hlens hc
  have hr : (t.setCol c).nRows = t.nRows :=
    Table.nRows_eq_of_forall (Table.cols_ne_nil_setCol hne) h1
  refine ⟨⟨?_, ?_, Table.nodup_names_setCol hnodup⟩, hr⟩
  · rw [hr]
    exact hpos
  · intro c' h
    rw [hr]
    exact h1 c' h

theorem Table.addCols_cons (t : Table) (c : Column) (cs : List Column) :
    t.addCols (c :: cs) = (t.setCol c).addCols cs := rfl

theorem Table.valid_addCols {t : Table} {ncs : List Column} (hv : t.Valid)
    (hlen : ∀ c ∈ ncs, c.cells.length = t.nRows) :
    (t.addCols ncs).Valid ∧ (t.addCols ncs).nRows = t.nRows := by
  induction ncs generalizing t with
  | nil => exact ⟨hv, rfl⟩
  | cons c cs ih =>
    have hvr := Table.valid_setCol hv (hlen c (List.mem_cons_self c cs))
    have := ih hvr.1 (fun c' hc' => (hlen c' (List.mem_cons_of_mem c hc')).trans hvr.2.symm)
    rw [Table.addCols_cons]
    exact ⟨this.1, this.2.trans hvr.2⟩

theorem Table.mem_addCols {t : Table} {ncs : List Column} {c' : Column}
    (h : c' ∈ (t.addCols ncs).cols) : c' ∈ t.cols ∨ c' ∈ ncs := by
  induction ncs generalizing t with
  | nil => exact Or.inl h
  | cons c cs ih =>
    rw [Table.addCols_cons] at h
    rcases ih h with h1 | h1
    · rcases Table.mem_setCol h1 with h2 | h2
      · exact Or.inl h2
      · exact Or.inr (h2 ▸ List.mem_cons_self c cs)
    · exact Or.inr (List.mem_cons_of_mem c h1)

theorem Table.mem_names_addCols {t : Table} {ncs : List Column} {n : String}
    (h : n ∈ t.names) : n ∈ (t.addCols ncs).names := by
  induction ncs generalizing t with
  | nil => exact h
  | cons c cs ih =>
    rw [Table.addCols_cons]
    exact ih (Table.mem_names_setCol h)

theorem Table.newname_mem_addCols {t : Table} {ncs : List Column} {c : Column}
    (h : c ∈ ncs) : c.name ∈ (t.addCols ncs).names := by
  induction ncs generalizing t with
  | nil => exact absurd h (List.not_mem_nil c)
  | cons c0 cs ih =>
    rw [Table.addCols_cons]
    rcases List.mem_cons.mp h with rfl | h1
    · exact Table.mem_names_addCols (Table.self_mem_names_setCol t c)
    · exact ih h1

theorem Table.getCol_mem {t : Table} {n : String} {c : Column}
    (h : t.getCol n = some c) : c ∈ t.cols ∧ c.name = n := by
  refine ⟨List.mem_of_find?_eq_some h, ?_⟩
  have := List.find?_some h
  simpa [beq_iff_eq] using this

/-- The column of a given name is uniquely determined in `t`. -/
def NameDet (nc : Column) (t : Table) : Prop :=
  ∀ c' ∈ t.cols, c'.name = nc.name → c' = nc

theorem getCol_of_namedet {t : Table} {nc c : Column} (hd : NameDet nc t)
    (h : t.getCol nc.name = some c) : c = nc := by
  obtain ⟨hm, hn⟩ := Table.getCol_mem h
  exact hd c hm hn

theorem namedet_setCol_self (t : Table) (c : Column) : NameDet c (t.setCol c) := by
  intro c' hc' hn
  unfold Table.setCol at hc'
  split at hc'
  · simp only [Table.cols_mk, List.mem_map] at hc'
    obtain ⟨c0, hc0, heq⟩ := hc'
    by_cases hb : (c0.name == c.name)
    · rw [if_pos hb] at heq
      exact heq.symm
    · rw [if_neg hb] at heq
      rw [← heq] at hn
      simp [hn] at hb
  · rename_i hany
    simp only [Table.cols_mk, List.mem_append, List.mem_singleton] at hc'
    rcases hc' with h1 | h1
    · exfalso
      simp only [List.any_eq_true, beq_iff_eq] at hany
      exact hany ⟨c', h1, hn⟩
    · exact h1

theorem namedet_setCol_preserve {t : Table} {nc d : Column} (h : NameDet nc t)
    (hd : d = nc ∨ d.name ≠ nc.name) : NameDet nc (t.setCol d) := by
  intro c' hc' hn
  rcases Table.mem_setCol hc' with h1 | rfl
  · exact h c' h1 hn
  · rcases hd with rfl | hne
    · rfl
    · exact absurd hn hne

theorem namedet_addCols {t : Table} {ncs : List Column} {nc : Column}
    (hst : nc ∈ ncs ∨ NameDet nc t)
    (hbatch : ∀ d ∈ ncs, d.name = nc.name → d = nc) :
    NameDet nc (t.addCols ncs) := by
  induction ncs generalizing t with
  | nil =>
    rcases hst with h | h
    · exact absurd h (List.not_mem_nil nc)
    · exact h
  | cons d cs ih =>
    rw [Table.addCols_cons]
    by_cases hdn : d.name = nc.name
    · have hdc : d = nc := hbatch d (List.mem_cons_self d cs) hdn
      subst hdc
      exact ih (Or.inr (namedet_setCol_self t d))
        (fun d' hd' => hbatch d' (List.mem_cons_of_mem d hd'))
    · rcases hst with h | h
      · rcases List.mem_cons.mp h with rfl | h1
        · exact absurd rfl hdn
        · exact ih (Or.inl h1) (fun d' hd' => hbatch d' (List.mem_cons_of_mem d hd'))
      · exact ih (Or.inr (namedet_setCol_preserve h (Or.inr hdn)))
          (fun d' hd' => hbatch d' (List.mem_cons_of_mem d hd'))

theorem lookupCols_ok_mem {t : Table} {req : ColKind} {skip : Bool}
    {names : List String} {lst : List Column}
    (h : lookupCols t req skip names = .ok lst) :
    ∀ c ∈ lst, c ∈ t.cols ∧ c.kind = req ∧ t.getCol c.name = some c := by
  induction names generalizing lst with
  | nil =>
    unfold lookupCols at h
    injection h with h
    subst h
    intro c hc
    exact absurd hc (List.not_mem_nil c)
  | cons n ns ih =>
    unfold lookupCols at h
    cases hg : t.getCol n with
    | none => rw [hg] at h; exact absurd h (by simp)
    | some c0 =>
      rw [hg] at h
      dsimp only at h
      by_cases hk : c0.kind = req
      · rw [if_pos hk] at h
        cases hr : lookupCols t req skip ns with
        | error e => rw [hr] at h; exact absurd h (by simp [Except.map])
        | ok rest =>
          rw [hr] at h
          simp only [Except.map] at h
          injection h with h
          subst h
          intro c hc
          rcases List.mem_cons.mp hc with rfl | h1
          · obtain ⟨hm, hn⟩ := Table.getCol_mem hg
            exact ⟨hm, hk, by rwa [hn]⟩
          · exact ih hr c h1
      · rw [if_neg hk] at h
        by_cases hs : skip
        · rw [if_pos hs] at h
          exact ih h
        · rw [if_neg hs] at h
          exact absurd h (by simp)

theorem lookupCols_ok_of_mem {t : Table} {req : ColKind}
    {names : List String} {lst : List Column} {n : String}
    (h : lookupCols t req false names = .ok lst) (hn : n ∈ names) :
    ∃ c, t.getCol n = some c ∧ c ∈ lst ∧ c.name = n := by
  induction names generalizing lst with
  | nil => exact absurd hn (List.not_mem_nil n)
  | cons n0 ns ih =>
    unfold lookupCols at h
    cases hg : t.getCol n0 with
    | none => rw [hg] at h; exact absurd h (by simp)
    | some c0 =>
      rw [hg] at h
      dsimp only at h
      by_cases hk : c0.kind = req
      · rw [if_pos hk] at h
        cases hr : lookupCols t req false ns with
        | error e => rw [hr] at h; exact absurd h (by simp [Except.map])
        | ok rest =>
          rw [hr] at h
          simp only [Except.map] at h
          injection h with h
          subst h
          rcases List.mem_cons.mp hn with rfl | h1
          · exact ⟨c0, hg, List.mem_cons_self c0 rest, (Table.getCol_mem hg).2⟩
          · obtain ⟨c, hc1, hc2, hc3⟩ := ih hr h1
            exact ⟨c, hc1, List.mem_cons_of_mem c0 hc2, hc3⟩
      · rw [if_neg hk] at h
        simp only [if_neg (Bool.false_ne_true ∘ id)] at h
        exact absurd h (by simp)

theorem mem_pairsOf {l : List α} {p : α × α} (h : p ∈ pairsOf l) :
    p.1 ∈ l ∧ p.2 ∈ l := by
  induction l with
  | nil => exact absurd h (List.not_mem_nil p)
  | cons x xs ih =>
    unfold pairsOf at h
    rcases List.mem_append.mp h with h1 | h1
    · obtain ⟨y, hy, heq⟩ := List.mem_map.mp h1
      subst heq
      exact ⟨List.mem_cons_self x xs, List.mem_cons_of_mem x hy⟩
    · obtain ⟨h2, h3⟩ := ih h1
      exact ⟨List.mem_cons_of_mem x h2, List.mem_cons_of_mem x h3⟩

theorem mem_ordPairs {l : List α} {p : α × α} (h : p ∈ ordPairs l) :
    p.1 ∈ l ∧ p.2 ∈ l := by
  induction l with
  | nil => exact absurd h (List.not_mem_nil p)
  | cons x xs ih =>
    unfold ordPairs at h
    rcases List.mem_append.mp h with h1 | h1
    · rcases List.mem_append.mp h1 with h2 | h2
      · obtain ⟨y, hy, heq⟩ := List.mem_map.mp h2
        subst heq
        exact ⟨List.mem_cons_self x xs, List.mem_cons_of_mem x hy⟩
      · obtain ⟨y, hy, heq⟩ := List.mem_map.mp h2
        subst heq
        exact ⟨List.mem_cons_of_mem x hy, List.mem_cons_self x xs⟩
    · obtain ⟨h2, h3⟩ := ih h1
      exact ⟨List.mem_cons_of_mem x h2, List.mem_cons_of_mem x h3⟩

theorem mem_capList {cap : Option Nat} {l : List α} {a : α} (h : a ∈ capList cap l) :
    a ∈ l := by
  cases cap with
  | none => exact h
  | some k => exact List.mem_of_mem_take h

theorem interactionColumn_length {a b : Column} {n : Nat}
    (ha : a.cells.length = n) (hb : b.cells.length = n) :
    (interactionColumn a b).cells.length = n := by
  simp [interactionColumn, ha, hb]

theorem ratioColumn_length {a b : Column} {n : Nat}
    (ha : a.cells.length = n) (hb : b.cells.length = n) :
    (ratioColumn a b).cells.length = n := by
  simp [ratioColumn, ha, hb]

theorem powerColumn_length (p : Nat) (c : Column) :
    (powerColumn p c).cells.length = c.cells.length := by
  simp [powerColumn]

theorem binnedColumn_length (n : Nat) (strategy : String) (c : Column) :
    (binnedColumn n strategy c).cells.length = c.cells.length := by
  simp [binnedColumn]

theorem aggColumn_length (n : Nat) (sel : List Column) (op : String) :
    (aggColumn n sel op).cells.length = n := by
  simp [aggColumn]

theorem dtColumn_length (c : Column) (f : String) :
    (dtColumn c f).cells.length = c.cells.length := by
  simp [dtColumn]

/-- C1: For every generator call (polynomial, interaction, ratio, binning,
aggregation, datetime) on a valid table, the output table has exactly the
same number of rows as the input table; generators add or replace columns,
never rows. -/
theorem C1_generators_preserve_row_count (e : AutoFeatureEngine) (hv : e.df.Valid) :
    (∀ cols deg io out, e.create_polynomial_features cols deg io = .ok out →
      out.nRows = e.df.nRows) ∧
    (∀ cols mx out, e.create_interactions cols mx = .ok out →
      out.nRows = e.df.nRows) ∧
    (∀ cols mx out, e.create_ratio_features cols mx = .ok out →
      out.nRows = e.df.nRows) ∧
    (∀ cols n strat repl out, e.create_binned_features cols n strat repl = .ok out →
      out.nRows = e.df.nRows) ∧
    (∀ cols ops out, e.create_aggregation_features cols ops = .ok out →
      out.nRows = e.df.nRows) ∧
    (∀ cols feats out, e.create_datetime_features cols feats = .ok out →
      out.nRows = e.df.nRows) := by
  refine ⟨?_, ?_, ?_, ?_, ?_, ?_⟩
  · -- polynomial
    intro cols deg io out h
    unfold AutoFeatureEngine.create_polynomial_features at h
    split at h
    · exact absurd h (by simp)
    cases hl : lookupCols e.df .numeric true cols with
    | error err => rw [hl] at h; exact absurd h (by simp)
    | ok ncols =>
      rw [hl] at h
      dsimp only at h
      split at h
      · exact absurd h (by simp)
      injection h with h
      subst h
      refine (Table.valid_addCols hv ?_).2
      intro c hc
      rcases List.mem_append.mp hc with h1 | h1
      · by_cases hio : io
        · rw [if_pos hio] at h1
          exact absurd h1 (List.not_mem_nil c)
        · rw [if_neg hio] at h1
          obtain ⟨l, hl1, hc1⟩ := List.mem_flatten.mp h1
          obtain ⟨c0, hc0, rfl⟩ := List.mem_map.mp hl1
          obtain ⟨i, _, rfl⟩ := List.mem_map.mp hc1
          rw [powerColumn_length]
          exact hv.2.1 c0 (lookupCols_ok_mem hl c0 hc0).1
      · obtain ⟨p, hp, rfl⟩ := List.mem_map.mp h1
        obtain ⟨hp1, hp2⟩ := mem_pairsOf hp
        exact interactionColumn_length
          (hv.2.1 p.1 (lookupCols_ok_mem hl p.1 hp1).1)
          (hv.2.1 p.2 (lookupCols_ok_mem hl p.2 hp2).1)
  · -- interaction
    intro cols mx out h
    unfold AutoFeatureEngine.create_interactions at h
    cases hl : lookupCols e.df .numeric false cols with
    | error err => rw [hl] at h; exact absurd h (by simp)
    | ok ncols =>
      rw [hl] at h
      dsimp only at h
      injection h with h
      subst h
      refine (Table.valid_addCols hv ?_).2
      intro c hc
      obtain ⟨p, hp, rfl⟩ := List.mem_map.mp hc
      obtain ⟨hp1, hp2⟩ := mem_pairsOf (mem_capList hp)
      exact interactionColumn_length
        (hv.2.1 p.1 (lookupCols_ok_mem hl p.1 hp1).1)
        (hv.2.1 p.2 (lookupCols_ok_mem hl p.2 hp2).1)
  · -- ratio
    intro cols mx out h
    unfold AutoFeatureEngine.create_ratio_features at h
    cases hl : lookupCols e.df .numeric false cols with
    | error err => rw [hl] at h; exact absurd h (by simp)
    | ok ncols =>
      rw [hl] at h
      dsimp only at h
      injection h with h
      subst h
      refine (Table.valid_addCols hv ?_).2
      intro c hc
      obtain ⟨p, hp, rfl⟩ := List.mem_map.mp hc
      obtain ⟨hp1, hp2⟩ := mem_ordPairs (mem_capList hp)
      exact ratioColumn_length
        (hv.2.1 p.1 (lookupCols_ok_mem hl p.1 hp1).1)
        (hv.2.1 p.2 (lookupCols_ok_mem hl p.2 hp2).1)
  · -- binning
    intro cols n strat repl out h
    unfold AutoFeatureEngine.create_binned_features at h
    split at h
    · exact absurd h (by simp)
    split at h
    · exact absurd h (by simp)
    cases hl : lookupCols e.df .numeric false cols with
    | error err => rw [hl] at h; exact absurd h (by simp)
    | ok ncols =>
      rw [hl] at h
      dsimp only at h
      by_cases hr : repl
      · rw [if_pos hr] at h
        injection h with h
        subst h
        refine Table.nRows_eq_of_forall ?_ ?_
        · simp only [Table.cols_mk, ne_eq, List.map_eq_nil_iff]
          exact Table.cols_ne_nil_of_valid hv
        · intro c hc
          simp only [Table.cols_mk, List.mem_map] at hc
          obtain ⟨c0, hc0, rfl⟩ := hc
          split
          · rw [binnedColumn_length]
            exact hv.2.1 c0 hc0
          · exact hv.2.1 c0 hc0
      · rw [if_neg hr] at h
        injection h with h
        subst h
        refine (Table.valid_addCols hv ?_).2
        intro c hc
        obtain ⟨c0, hc0, rfl⟩ := List.mem_map.mp hc
        rw [binnedColumn_length]
        exact hv.2.1 c0 (lookupCols_ok_mem hl c0 hc0).1
  · -- aggregation
    intro cols ops out h
    unfold AutoFeatureEngine.create_aggregation_features at h
    split at h
    · exact absurd h (by simp)
    cases hl : lookupCols e.df .numeric false cols with
    | error err => rw [hl] at h; exact absurd h (by simp)
    | ok ncols =>
      rw [hl] at h
      dsimp only at h
      injection h with h
      subst h
      refine (Table.valid_addCols hv ?_).2
      intro c hc
      obtain ⟨op, _, rfl⟩ := List.mem_map.mp hc
      exact aggColumn_length e.df.nRows ncols op
  · -- datetime
    intro cols feats out h
    unfold AutoFeatureEngine.create_datetime_features at h
    cases hl : lookupCols e.df .datetime false cols with
    | error err => rw [hl] at h; exact absurd h (by simp)
    | ok dcols =>
      rw [hl] at h
      dsimp only at h
      injection h with h
      subst h
      refine (Table.valid_addCols hv ?_).2
      intro c hc
      obtain ⟨l, hl1, hc1⟩ := List.mem_flatten.mp hc
      obtain ⟨c0, hc0, rfl⟩ := List.mem_map.mp hl1
      obtain ⟨f, _, rfl⟩ := List.mem_map.mp hc1
      rw [dtColumn_length]
      exact hv.2.1 c0 (lookupCols_ok_mem hl c0 hc0).1

/-- Witness for C1 at the concrete engine `wEngine`: each generator succeeds
and preserves the row count. -/
theorem C1_generators_preserve_row_count_witness :
    wEngine.df.Valid ∧
    wOutPoly.nRows = wEngine.df.nRows ∧
    wOutInter.nRows = wEngine.df.nRows ∧
    wOutRatio.nRows = wEngine.df.nRows ∧
    wOutBin.nRows = wEngine.df.nRows ∧
    wOutAgg.nRows = wEngine.df.nRows ∧
    wOutDt.nRows = wEngine.df.nRows := by
  have hv : wEngine.df.Valid := by decide
  have h := C1_generators_preserve_row_count wEngine hv
  exact ⟨hv,
    h.1 ["a", "b"] 2 false wOutPoly rfl,
    h.2.1 ["a", "b"] none wOutInter rfl,
    h.2.2.1 ["a", "b"] none wOutRatio rfl,
    h.2.2.2.1 ["a"] 2 "uniform" false wOutBin rfl,
    h.2.2.2.2.1 ["a", "b"] ["sum", "mean"] wOutAgg rfl,
    h.2.2.2.2.2 ["d"] ["year", "month"] wOutDt rfl⟩

theorem mem_zipWith {f : α → β → γ} {l1 : List α} {l2 : List β} {c : γ}
    (h : c ∈ List.zipWith f l1 l2) : ∃ a ∈ l1, ∃ b ∈ l2, c = f a b := by
  induction l1 generalizing l2 with
  | nil => exact absurd h (List.not_mem_nil c)
  | cons a as ih =>
    cases l2 with
    | nil => exact absurd h (List.not_mem_nil c)
    | cons b bs =>
      rcases List.mem_cons.mp h with rfl | h1
      · exact ⟨a, List.mem_cons_self a as, b, List.mem_cons_self b bs, rfl⟩
      · obtain ⟨a2, ha2, b2, hb2, rfl⟩ := ih h1
        exact ⟨a2, List.mem_cons_of_mem a ha2, b2, List.mem_cons_of_mem b hb2, rfl⟩

theorem cellDiv_defined {a b : Cell} (ha : a.isNumericCell = true)
    (hb : b.isNumericCell = true) : (cellDiv a b).isUndef = false := by
  cases a with
  | real qa =>
    cases b with
    | real qb =>
      by_cases h0 : qb = 0
      · by_cases ha0 : qa = 0 <;> simp [cellDiv, h0, ha0, Cell.isUndef]
      · simp [cellDiv, h0, Cell.isUndef]
    | inf s => simp [cellDiv, Cell.isUndef]
    | nan => simp [Cell.isNumericCell] at hb
    | text s => simp [Cell.isNumericCell] at hb
    | time d => simp [Cell.isNumericCell] at hb
  | inf s =>
    cases b with
    | real qb => simp [cellDiv, Cell.isUndef]
    | inf s2 => simp [cellDiv, Cell.isUndef]
    | nan => simp [Cell.isNumericCell] at hb
    | text s2 => simp [Cell.isNumericCell] at hb
    | time d => simp [Cell.isNumericCell] at hb
  | nan => simp [Cell.isNumericCell] at ha
  | text s => simp [Cell.isNumericCell] at ha
  | time d => simp [Cell.isNumericCell] at ha

/-- C2: For every call to create_ratio_features, each row whose denominator
value is zero yields a well-defined numeric sentinel (zero or signed
infinity) in the resulting ratio column rather than a language-level error,
and no output ratio column is entirely null/undefined as a result of this
substitution. -/
theorem C2_ratio_zero_division_policy :
    (∀ a : Cell, a.isNumericCell = true →
      cellDiv a (Cell.real 0) = Cell.real 0 ∨
        ∃ s, cellDiv a (Cell.real 0) = Cell.inf s) ∧
    (∀ num den : Column, (∀ c ∈ num.cells, c.isNumericCell = true) →
      (∀ c ∈ den.cells, c.isNumericCell = true) →
      ∀ c ∈ (ratioColumn num den).cells, c.isUndef = false) ∧
    (∀ e : AutoFeatureEngine, e.df.Valid → ∀ cols mx out,
      e.create_ratio_features cols mx = .ok out →
      ∀ c ∈ out.cols, c ∈ e.df.cols ∨
        ∃ a b, a ∈ e.df.cols ∧ b ∈ e.df.cols ∧ a.kind = .numeric ∧
          b.kind = .numeric ∧ c = ratioColumn a b) := by
  refine ⟨?_, ?_, ?_⟩
  · intro a ha
    cases a with
    | real q =>
      by_cases hq : q = 0
      · left
        simp [cellDiv, hq]
      · right
        exact ⟨decide (0 ≤ q), by simp [cellDiv, hq]⟩
    | inf s => exact Or.inr ⟨s, by simp [cellDiv]⟩
    | nan => simp [Cell.isNumericCell] at ha
    | text s => simp [Cell.isNumericCell] at ha
    | time d => simp [Cell.isNumericCell] at ha
  · intro num den h1 h2 c hc
    obtain ⟨a, ha, b, hb, rfl⟩ := mem_zipWith hc
    exact cellDiv_defined (h1 a ha) (h2 b hb)
  · intro e hv cols mx out h c hc
    unfold AutoFeatureEngine.create_ratio_features at h
    cases hl : lookupCols e.df .numeric false cols with
    | error err => rw [hl] at h; exact absurd h (by simp)
    | ok ncols =>
      rw [hl] at h
      dsimp only at h
      injection h with h
      subst h
      rcases Table.mem_addCols hc with h1 | h1
      · exact Or.inl h1
      · obtain ⟨p, hp, rfl⟩ := List.mem_map.mp h1
        obtain ⟨hp1, hp2⟩ := mem_ordPairs (mem_capList hp)
        obtain ⟨hm1, hk1, _⟩ := lookupCols_ok_mem hl p.1 hp1
        obtain ⟨hm2, hk2, _⟩ := lookupCols_ok_mem hl p.2 hp2
        exact Or.inr ⟨p.1, p.2, hm1, hm2, hk1, hk2, rfl⟩

/-- Witness for C2 at concrete cells, columns and the concrete ratio call
over `wTable`. -/
theorem C2_ratio_zero_division_policy_witness :
    ((Cell.real 5).isNumericCell = true ∧
      (cellDiv (Cell.real 5) (Cell.real 0) = Cell.real 0 ∨
        ∃ s, cellDiv (Cell.real 5) (Cell.real 0) = Cell.inf s)) ∧
    (Cell.inf true).isUndef = false ∧
    (wEngine.df.Valid ∧
      (wRatioCol ∈ wEngine.df.cols ∨
        ∃ a b, a ∈ wEngine.df.cols ∧ b ∈ wEngine.df.cols ∧ a.kind = .numeric ∧
          b.kind = .numeric ∧ wRatioCol = ratioColumn a b)) := by
  have h := C2_ratio_zero_division_policy
  refine ⟨⟨rfl, h.1 (Cell.real 5) rfl⟩, ?_, ⟨by decide, ?_⟩⟩
  · exact h.2.1 wNum wDen (by decide) (by decide) (Cell.inf true) (by decide)
  · exact h.2.2 wEngine (by decide) ["a", "b"] none wOutRatio rfl wRatioCol
      (List.Mem.tail _ (List.Mem.tail _ (List.Mem.tail _ (List.Mem.tail _
        (List.Mem.head _)))))

/-- C3: For every call to select_features on an engine with a bound target
and parameter k, the returned table always contains the target column and
has at most k + 1 columns. -/
theorem C3_select_features_keeps_target_and_k_bound
    (e : AutoFeatureEngine) (tgt : String) (h : e.target_column = some tgt)
    (method : String) (k : Nat) (task : String) (out : Table)
    (h2 : e.select_features method k task = .ok out) :
    tgt ∈ out.names ∧ out.cols.length ≤ k + 1 := by
  unfold AutoFeatureEngine.select_features at h2
  rw [h] at h2
  dsimp only at h2
  split at h2
  · exact absurd h2 (by simp)
  split at h2
  · exact absurd h2 (by simp)
  cases hg : e.df.getCol tgt with
  | none => rw [hg] at h2; exact absurd h2 (by simp)
  | some tcol =>
    rw [hg] at h2
    dsimp only at h2
    injection h2 with h2
    subst h2
    constructor
    · exact List.mem_map.mpr
        ⟨tcol, List.mem_append_right _ (List.mem_singleton.mpr rfl),
          (Table.getCol_mem hg).2⟩
    · simp only [Table.cols_mk, List.length_append, List.length_singleton]
      have h3 := List.length_take_le k
        (sortBy (fun a b => decide (b.2 ≤ a.2))
          ((e.df.cols.filter (fun c => c.name != tgt)).map
            (fun c => (c, featureScore method c tcol))))
      rw [List.length_map]
      omega

/-- Witness for C3 at the concrete engine `wSelEngine` with k = 5. -/
theorem C3_select_features_keeps_target_and_k_bound_witness :
    wSelEngine.target_column = some "t" ∧
    "t" ∈ wOutSel.names ∧ wOutSel.cols.length ≤ 5 + 1 :=
  ⟨rfl, C3_select_features_keeps_target_and_k_bound wSelEngine "t" rfl
    "mutual_info" 5 "classification" wOutSel rfl⟩

/-- C4: For every engine constructed without a target column, every call to
select_features and every call to get_feature_importance fails with
ValueError; neither operation ever succeeds in the absence of a bound
target. -/
theorem C4_supervised_calls_require_target (e : AutoFeatureEngine)
    (h : e.target_column = none) :
    (∀ method k task,
      e.select_features method k task = .error (.valueError "target required")) ∧
    (∀ task,
      e.get_feature_importance task = .error (.valueError "target required")) := by
  constructor
  · intro method k task
    unfold AutoFeatureEngine.select_features
    rw [h]
  · intro task
    unfold AutoFeatureEngine.get_feature_importance
    rw [h]

/-- Witness for C4 at the concrete target-free engine `wEngineNoTarget`. -/
theorem C4_supervised_calls_require_target_witness :
    wEngineNoTarget.target_column = none ∧
    wEngineNoTarget.select_features "mutual_info" 5 "classification" =
      .error (.valueError "target required") ∧
    wEngineNoTarget.get_feature_importance "classification" =
      .error (.valueError "target required") := by
  have h := C4_supervised_calls_require_target wEngineNoTarget rfl
  exact ⟨rfl, h.1 "mutual_info" 5 "classification", h.2 "classification"⟩

theorem string_append_cancel {a b s : String} (h : a ++ s = b ++ s) : a = b := by
  have hd := congrArg String.data h
  rw [String.data_append, String.data_append] at hd
  have h2 := List.append_cancel_right hd
  cases a
  cases b
  exact congrArg String.mk h2

theorem binnedColumn_name (n : Nat) (strategy : String) (c : Column) :
    (binnedColumn n strategy c).name = c.name ++ "_binned" := rfl

theorem cutPoints_length (strategy : String) (vals : List ℚ) (n : Nat) :
    (cutPoints strategy vals n).length = n - 1 := by
  unfold cutPoints
  split_ifs <;> simp only [List.length_map, List.length_range]

theorem binnedColumn_cells_bound {n : Nat} (hn : ¬n = 0) (strategy : String)
    (c : Column) :
    ∀ v ∈ (binnedColumn n strategy c).cells,
      ∃ kk : Nat, kk < n ∧ v = Cell.real (kk : ℚ) := by
  intro v hv
  simp only [binnedColumn] at hv
  obtain ⟨cell, _, rfl⟩ := List.mem_map.mp hv
  refine ⟨binIndex (cutPoints strategy (cellsToQ c.cells) n) (cellQ cell), ?_, rfl⟩
  have h1 := List.countP_le_length (fun e => decide (e ≤ cellQ cell))
    (l := cutPoints strategy (cellsToQ c.cells) n)
  have h2 := cutPoints_length strategy (cellsToQ c.cells) n
  unfold binIndex
  omega

theorem dedup_length_le_of_bound {l : List Cell} {n : Nat}
    (h : ∀ v ∈ l, ∃ kk : Nat, kk < n ∧ v = Cell.real (kk : ℚ)) :
    l.dedup.length ≤ n := by
  have h1 : l.dedup ⊆ (List.range n).map (fun kk : Nat => Cell.real (kk : ℚ)) := by
    intro v hv
    obtain ⟨kk, hk, rfl⟩ := h v (List.mem_dedup.mp hv)
    exact List.mem_map.mpr ⟨kk, List.mem_range.mpr hk, rfl⟩
  have h2 : l.dedup.toFinset.card = l.dedup.length :=
    List.toFinset_card_of_nodup (List.nodup_dedup l)
  have h3 : l.dedup.toFinset ⊆
      ((List.range n).map (fun kk : Nat => Cell.real (kk : ℚ))).toFinset := by
    intro x hx
    exact List.mem_toFinset.mpr (h1 (List.mem_toFinset.mp hx))
  have h4 := Finset.card_le_card h3
  have h5 := List.toFinset_card_le
    ((List.range n).map (fun kk : Nat => Cell.real (kk : ℚ)))
  have h6 : ((List.range n).map (fun kk : Nat => Cell.real (kk : ℚ))).length = n := by
    simp
  omega

/-- C5: For every call to create_binned_features in its default mode with
parameter n_bins, each named source column is kept in the output alongside a
new column named by suffixing the source name with the binned marker, and
every value of each produced binned column lies in the integer range
[0, n_bins), so each binned column has at most n_bins distinct values for
every strategy. -/
theorem C5_binned_features_default_mode
    (e : AutoFeatureEngine) (_hv : e.df.Valid) (cols : List String) (n : Nat)
    (strat : String) (out : Table)
    (h : e.create_binned_features cols n strat false = .ok out) :
    ∀ src ∈ cols,
      src ∈ out.names ∧
      (src ++ "_binned") ∈ out.names ∧
      ∀ c, out.getCol (src ++ "_binned") = some c →
        (∀ v ∈ c.cells, ∃ kk : Nat, kk < n ∧ v = Cell.real (kk : ℚ)) ∧
        c.cells.dedup.length ≤ n := by
  unfold AutoFeatureEngine.create_binned_features at h
  split at h
  · exact absurd h (by simp)
  rename_i hn0
  split at h
  · exact absurd h (by simp)
  cases hl : lookupCols e.df .numeric false cols with
  | error err => rw [hl] at h; exact absurd h (by simp)
  | ok ncols =>
    rw [hl] at h
    dsimp only at h
    injection h with h
    subst h
    intro src hsrc
    obtain ⟨csrc, hg, hmem, hname⟩ := lookupCols_ok_of_mem hl hsrc
    have hsrcmem : csrc ∈ e.df.cols := (Table.getCol_mem hg).1
    refine ⟨?_, ?_, ?_⟩
    · rw [← hname]
      exact Table.mem_names_addCols (List.mem_map.mpr ⟨csrc, hsrcmem, rfl⟩)
    · have hb : binnedColumn n strat csrc ∈ ncols.map (binnedColumn n strat) :=
        List.mem_map.mpr ⟨csrc, hmem, rfl⟩
      have hmm := Table.newname_mem_addCols (t := e.df) hb
      rwa [binnedColumn_name, hname] at hmm
    · intro c hgc
      have hbatch : ∀ d ∈ ncols.map (binnedColumn n strat),
          d.name = (binnedColumn n strat csrc).name →
          d = binnedColumn n strat csrc := by
        intro d hd hdn
        obtain ⟨c2, hc2, rfl⟩ := List.mem_map.mp hd
        rw [binnedColumn_name, binnedColumn_name] at hdn
        have hnn : c2.name = csrc.name := string_append_cancel hdn
        have hg2 := (lookupCols_ok_mem hl c2 hc2).2.2
        have hg3 := (lookupCols_ok_mem hl csrc hmem).2.2
        rw [hnn, hg3] at hg2
        injection hg2 with hg2
        rw [hg2]
      have hdet : NameDet (binnedColumn n strat csrc)
          (e.df.addCols (ncols.map (binnedColumn n strat))) :=
        namedet_addCols (Or.inl (List.mem_map.mpr ⟨csrc, hmem, rfl⟩)) hbatch
      have hceq : c = binnedColumn n strat csrc := by
        apply getCol_of_namedet hdet
        rwa [binnedColumn_name, hname]
      subst hceq
      have hvals := binnedColumn_cells_bound hn0 strat csrc
      exact ⟨hvals, dedup_length_le_of_bound hvals⟩

/-- Witness for C5 at the concrete binning call over `wTable` with
n_bins = 2. -/
theorem C5_binned_features_default_mode_witness :
    wEngine.df.Valid ∧
    "a" ∈ wOutBin.names ∧
    ("a" ++ "_binned") ∈ wOutBin.names ∧
    (∃ kk : Nat, kk < 2 ∧ wBinCol.cells.getD 0 Cell.nan = Cell.real (kk : ℚ)) ∧
    wBinCol.cells.dedup.length ≤ 2 := by
  have hv : wEngine.df.Valid := by decide
  have h := C5_binned_features_default_mode wEngine hv ["a"] 2 "uniform" wOutBin rfl
    "a" (List.mem_singleton.mpr rfl)
  have h3 := h.2.2 wBinCol rfl
  exact ⟨hv, h.1, h.2.1,
    h3.1 (wBinCol.cells.getD 0 Cell.nan) (List.Mem.head _), h3.2⟩

theorem lookupCols_datetime_err {t : Table} {names : List String} {src : String}
    {col : Column} (hn : src ∈ names) (hg : t.getCol src = some col)
    (hk : ¬col.kind = .datetime) (hall : ∀ n ∈ names, (t.getCol n).isSome) :
    ∃ msg, lookupCols t .datetime false names = .error (.typeError msg) := by
  induction names with
  | nil => exact absurd hn (List.not_mem_nil src)
  | cons n0 ns ih =>
    have hs0 := hall n0 (List.mem_cons_self n0 ns)
    cases hg0 : t.getCol n0 with
    | none => rw [hg0] at hs0; exact absurd hs0 (by simp)
    | some c0 =>
      unfold lookupCols
      rw [hg0]
      dsimp only
      by_cases hk0 : c0.kind = .datetime
      · rw [if_pos hk0]
        have hsrc_tail : src ∈ ns := by
          rcases List.mem_cons.mp hn with rfl | h1
          · rw [hg] at hg0
            injection hg0 with he
            rw [← he] at hk0
            exact absurd hk0 hk
          · exact h1
        obtain ⟨msg, hmsg⟩ :=
          ih hsrc_tail (fun n hn2 => hall n (List.mem_cons_of_mem n0 hn2))
        rw [hmsg]
        exact ⟨msg, rfl⟩
      · rw [if_neg hk0, if_neg (by simp)]
        exact ⟨"column " ++ n0 ++ " has wrong kind", rfl⟩

/-- C6: For every call to create_datetime_features naming a column that
exists but is not datetime-valued (with every named column existing), the
call raises TypeError or ValueError — here the TypeError of the error
taxonomy — and never returns a table; this is a hard failure, not a silent
skip. -/
theorem C6_datetime_non_datetime_fails
    (e : AutoFeatureEngine) (cols feats : List String) (src : String)
    (col : Column) (hn : src ∈ cols) (hg : e.df.getCol src = some col)
    (hk : ¬col.kind = .datetime)
    (hall : ∀ n ∈ cols, (e.df.getCol n).isSome) :
    (∃ msg, e.create_datetime_features cols feats = .error (.typeError msg)) ∧
    ∀ out, e.create_datetime_features cols feats ≠ .ok out := by
  obtain ⟨msg, hmsg⟩ := lookupCols_datetime_err hn hg hk hall
  constructor
  · refine ⟨msg, ?_⟩
    unfold AutoFeatureEngine.create_datetime_features
    rw [hmsg]
  · intro out hout
    unfold AutoFeatureEngine.create_datetime_features at hout
    rw [hmsg] at hout
    exact absurd hout (by simp)

/-- Witness for C6 at the numeric column "a" of `wTable`. -/
theorem C6_datetime_non_datetime_fails_witness :
    "a" ∈ ["a"] ∧
    wEngine.df.getCol "a" = some wACol ∧
    ¬wACol.kind = ColKind.datetime ∧
    (∃ msg, wEngine.create_datetime_features ["a"] ["year"] =
      .error (.typeError msg)) ∧
    wEngine.create_datetime_features ["a"] ["year"] ≠ .ok wTable := by
  have h := C6_datetime_non_datetime_fails wEngine ["a"] ["year"] "a" wACol
    (List.mem_singleton.mpr rfl) rfl (by decide) (by decide)
  exact ⟨List.mem_singleton.mpr rfl, rfl, by decide, h.1, h.2 wTable⟩

/-- C7: Constructing the engine fails with InputTypeError for every input
that is not a table-shaped value, with EmptyInputError for every table with
zero rows or zero columns, and with TargetNotFoundError whenever a target
name is supplied but absent from the table's columns; on success the engine
holds the table and the target name (or none). -/
theorem C7_validator_contract :
    (∀ target, AutoFeatureEngine.init .nonTable target = .error .inputTypeError) ∧
    (∀ t target, (t.cols.length = 0 ∨ t.nRows = 0) →
      AutoFeatureEngine.init (.table t) target = .error .emptyInputError) ∧
    (∀ t name, ¬(t.cols.length = 0 ∨ t.nRows = 0) → t.getCol name = none →
      AutoFeatureEngine.init (.table t) (some name) = .error .targetNotFoundError) ∧
    (∀ t target eng, AutoFeatureEngine.init (.table t) target = .ok eng →
      eng.df = t ∧ eng.target_column = target) := by
  refine ⟨fun target => rfl, ?_, ?_, ?_⟩
  · intro t target hemp
    unfold AutoFeatureEngine.init
    dsimp only
    rw [if_pos hemp]
  · intro t name hne hg
    unfold AutoFeatureEngine.init
    dsimp only
    rw [if_neg hne, hg]
  · intro t target eng h
    unfold AutoFeatureEngine.init at h
    dsimp only at h
    split at h
    · exact absurd h (by simp)
    cases target with
    | none =>
      dsimp only at h
      injection h with h
      exact ⟨by rw [← h], by rw [← h]⟩
    | some name =>
      dsimp only at h
      cases hg : t.getCol name with
      | none => rw [hg] at h; exact absurd h (by simp)
      | some c =>
        rw [hg] at h
        dsimp only at h
        injection h with h
        exact ⟨by rw [← h], by rw [← h]⟩

/-- Witness for C7 at concrete constructor inputs. -/
theorem C7_validator_contract_witness :
    AutoFeatureEngine.init .nonTable none = .error .inputTypeError ∧
    AutoFeatureEngine.init (.table ⟨[]⟩) none = .error .emptyInputError ∧
    AutoFeatureEngine.init (.table wTable) (some "zzz") =
      .error .targetNotFoundError ∧
    (wEngine.df = wTable ∧ wEngine.target_column = some "t") := by
  have h := C7_validator_contract
  exact ⟨h.1 none, h.2.1 ⟨[]⟩ none (Or.inl rfl),
    h.2.2.1 wTable "zzz" (by decide) rfl,
    h.2.2.2 wTable (some "t") wEngine rfl⟩

/-- C8: For every engine with a bound target, get_feature_importance returns
a mapping with exactly one entry per non-target column of the table
(features with zero importance included, never omitted, and no entry for the
target itself), and every score in the mapping is a non-negative value. -/
theorem C8_importance_mapping
    (e : AutoFeatureEngine) (tgt : String) (task : String)
    (m : List (String × ℚ)) (h : e.target_column = some tgt)
    (h2 : e.get_feature_importance task = .ok m) :
    m.map Prod.fst = (e.df.cols.filter (fun c => c.name != tgt)).map Column.name ∧
    (∀ p ∈ m, 0 ≤ p.2) ∧ (∀ p ∈ m, p.1 ≠ tgt) := by
  unfold AutoFeatureEngine.get_feature_importance at h2
  rw [h] at h2
  dsimp only at h2
  split at h2
  · exact absurd h2 (by simp)
  cases hg : e.df.getCol tgt with
  | none => rw [hg] at h2; exact absurd h2 (by simp)
  | some tcol =>
    rw [hg] at h2
    dsimp only at h2
    injection h2 with h2
    subst h2
    refine ⟨?_, ?_, ?_⟩
    · rw [List.map_map]
      rfl
    · intro p hp
      obtain ⟨c, hc, rfl⟩ := List.mem_map.mp hp
      exact sq_nonneg _
    · intro p hp
      obtain ⟨c, hc, rfl⟩ := List.mem_map.mp hp
      have h3 := (List.mem_filter.mp hc).2
      simp only [bne_iff_ne, ne_eq] at h3
      exact h3

/-- Witness for C8 at the concrete engine `wEngine`. -/
theorem C8_importance_mapping_witness :
    wEngine.target_column = some "t" ∧
    wOutImp.map Prod.fst =
      (wEngine.df.cols.filter (fun c => c.name != "t")).map Column.name ∧
    0 ≤ wImpHead.2 ∧ wImpHead.1 ≠ "t" := by
  have h := C8_importance_mapping wEngine "t" "classification" wOutImp rfl rfl
  exact ⟨rfl, h.1, h.2.1 wImpHead (List.Mem.head _), h.2.2 wImpHead (List.Mem.head _)⟩

/-- C9: For every prompt and every supported provider, a failure of the LLM
suggestion collaborator never propagates as an engine failure:
LLMSuggestor._call_llm catches every exception raised by the underlying
provider call and returns the error message as an ordinary string instead of
raising — modelled by `call_llm` returning a plain `String` that is either
the provider's content or the rendered error message. -/
theorem C9_call_llm_never_raises (p : LLMProvider) (o : ProviderOutcome) :
    call_llm_body p o = .ok (call_llm p o) ∨
    ∃ e, call_llm_body p o = .error e ∧
      call_llm p o = "Error calling " ++ providerName p ++ ": " ++ e := by
  cases hb : call_llm_body p o with
  | ok s =>
    left
    unfold call_llm
    rw [hb]
  | error e =>
    right
    exact ⟨e, rfl, by unfold call_llm; rw [hb]⟩

/-- C10 counterexample: analyze_dataframe does not always return a dictionary
— for the response text "[1, 2]" the parsed JSON value is an array, which is
returned as-is. -/
theorem C10_counterexample :
    (analyze_dataframe_parse "[1, 2]").isObj = false ∧
    analyze_dataframe_parse "[1, 2]" = Json.jarr [Json.jnum 1, Json.jnum 2] := by
  constructor <;> rfl

/-- C10 (amended): For every LLM response text, analyze_dataframe's response
parsing never raises: it strips markdown code fences when present, and
returns the parsed JSON value as-is when the stripped text parses (a
dictionary only when that value is a JSON object), falling back to
a dictionary mapping "raw_response" to the (possibly fence-stripped)
response text when parsing fails. -/
theorem C10_parse_dispatch (text : String) :
    (∀ j, jsonLoads (stripFences text) = some j →
      analyze_dataframe_parse text = j) ∧
    (jsonLoads (stripFences text) = none →
      analyze_dataframe_parse text =
        Json.jobj [("raw_response", Json.jstr (stripFences text))]) := by
  constructor
  · intro j hj
    unfold analyze_dataframe_parse
    dsimp only
    rw [hj]
  · intro hn
    unfold analyze_dataframe_parse
    dsimp only
    rw [hn]

/-- Witness for C10 at a parsing response and a non-parsing response. -/
theorem C10_parse_dispatch_witness :
    (jsonLoads (stripFences "[1, 2]") =
        some (Json.jarr [Json.jnum 1, Json.jnum 2]) ∧
      analyze_dataframe_parse "[1, 2]" = Json.jarr [Json.jnum 1, Json.jnum 2]) ∧
    (jsonLoads (stripFences "oops") = none ∧
      analyze_dataframe_parse "oops" =
        Json.jobj [("raw_response", Json.jstr (stripFences "oops"))]) := by
  refine ⟨⟨rfl, ?_⟩, ⟨rfl, ?_⟩⟩
  · exact (C10_parse_dispatch "[1, 2]").1 (Json.jarr [Json.jnum 1, Json.jnum 2]) rfl
  · exact (C10_parse_dispatch "oops").2 rfl

end Autoprepml

